import Mathlib

/-!
Shallow embedding of `src/stylesheets.ts` (visual-html): a miniature CSS
cascade resolver.  Pure functions of the source are translated directly;
the module-level global regex (`pseudoElementRegex`, whose `g` flag gives
it a persistent `lastIndex` cursor) is modelled by threading the cursor
value explicitly through the functions that use it.
-/

namespace VisualHtml

/-- One CSS declaration `(propertyName, value, important)` as enumerated from a
`CSSStyleDeclaration`.  A `CSSStyleDeclaration` holds at most one declaration
per property name, so enumerating the triples and reading `style[name]` /
`style.getPropertyPriority(name)` agree. -/
structure Decl where
  name : String
  value : String
  important : Bool
deriving DecidableEq, Repr

/-- A `CSSStyleDeclaration` viewed as its ordered list of declarations. -/
abbrev DeclBlock := List Decl

/-- Lookup in a JS object used as a string-keyed map (`properties[name]`):
`none` models `undefined`. -/
def getPropS : List (String × String) → String → Option String
  | [], _ => none
  | (k, v) :: rest, n => if k = n then some v else getPropS rest n

/-- Assignment `properties[name] = value` on a JS object: an existing key keeps
its position, a new key is appended at the end (JS string-key insertion
order). -/
def setPropS : List (String × String) → String → String → List (String × String)
  | [], n, v => [(n, v)]
  | (k, w) :: rest, n, v =>
      if k = n then (k, v) :: rest else (k, w) :: setPropS rest n v

/-- The mutable state of `getAppliedPropertiesForStyles`:
`properties` (a JS object or `null`) and the `important` `Set`. -/
structure ResolveState where
  properties : Option (List (String × String))
  important : List String
deriving Repr

/-- `Set.add`: adds the name if absent, otherwise leaves the set unchanged. -/
def addImportant (s : List String) (n : String) : List String :=
  if n ∈ s then s else s ++ [n]

/-- The body of the inner loop of `getAppliedPropertiesForStyles` for one
declaration. -/
def applyDecl (st : ResolveState) (d : Decl) : ResolveState :=
  let value := d.value ++ (if d.important then " !important" else "")
  let props :=
    match st.properties with
    | some props =>
        if getPropS props d.name = none ∨ (d.important ∧ d.name ∉ st.important) then
          some (setPropS props d.name value)
        else
          some props
    | none => some [(d.name, value)]
  { properties := props
    important := if d.important then addImportant st.important d.name else st.important }

/-- `getAppliedPropertiesForStyles`: merges an ordered list of declaration
blocks (highest priority first) into one property map, or `none` (JS `null`)
when no declaration was seen. -/
def getAppliedPropertiesForStyles (styles : List DeclBlock) :
    Option (List (String × String)) :=
  (styles.foldl (fun (st : ResolveState) (style : DeclBlock) =>
    style.foldl applyDecl st) ⟨none, []⟩).properties

/-- An element, as the cascade code observes it: the host-provided
`el.matches(selector)` primitive (here `matchesSel`, since `matches` is a
reserved word) and the inline `el.style` block. -/
structure Element where
  matchesSel : String → Bool
  style : DeclBlock

/-- A `CSSStyleRule`: selector text plus its declaration block. -/
structure CSSStyleRule where
  selectorText : String
  style : DeclBlock
deriving Repr

/-- `getElementStyles`: the inline block first, then the blocks of the rules
whose selector matches the element, all passed to the cascade resolver. -/
def getElementStyles (el : Element) (rules : List CSSStyleRule) :
    Option (List (String × String)) :=
  getAppliedPropertiesForStyles
    ([el.style] ++ (rules.filter (fun rule => el.matchesSel rule.selectorText)).map
      (fun rule => rule.style))

/-- A `CSSRule` as dispatched on by `rule.type`: a style rule (type 1), a
media-conditional group (type 4), a supports-conditional group (type 12), or
any other kind of rule (keyframes, font-face, ...), which the collector
ignores. -/
inductive CSSRule where
  | styleRule (selectorText : String) (style : DeclBlock)
  | mediaRule (mediaText : String) (cssRules : List CSSRule)
  | supportsRule (conditionText : String) (cssRules : List CSSRule)
  | otherRule
deriving Repr

/-- The pieces of the host `window` the collector reads: `window.matchMedia`
(possibly absent, i.e. falsy) and `window.CSS.supports`. -/
structure Window where
  matchMedia : Option (String → Bool)
  supports : String → Bool

mutual

/-- The contribution of one rule inside the loop of `getStyleRulesFromSheet`. -/
def collectRule (win : Window) : CSSRule → List CSSStyleRule
  | CSSRule.styleRule sel style => [⟨sel, style⟩]
  | CSSRule.mediaRule m rs =>
      match win.matchMedia with
      | some mm => if mm m then getStyleRulesFromSheet win rs else []
      | none => []
  | CSSRule.supportsRule c rs =>
      if win.supports c then getStyleRulesFromSheet win rs else []
  | CSSRule.otherRule => []

/-- `getStyleRulesFromSheet`: the loop `for (let i = curRules.length; i--;)`
walks the rule list from its end backward, so the last-declared rule
contributes first. -/
def getStyleRulesFromSheet (win : Window) : List CSSRule → List CSSStyleRule
  | [] => []
  | rule :: rest => getStyleRulesFromSheet win rest ++ collectRule win rule

end

/-- `getDocumentStyleRules`: collect each sheet, flatten, and sort with the
comparator `(a, b) => compare(b.selectorText, a.selectorText)` (descending
specificity).  JS `Array.prototype.sort` is a stable sort, modelled by
`List.mergeSort`. -/
def getDocumentStyleRules (compare : String → String → Int) (win : Window)
    (styleSheets : List (List CSSRule)) : List CSSStyleRule :=
  (((styleSheets.map (getStyleRulesFromSheet win)).foldl
      (fun a b => a ++ b) []).mergeSort
    (fun a b => decide (compare b.selectorText a.selectorText ≤ 0)))

/-- The alternatives of `pseudoElementRegex`, in alternation order.  None is a
prefix of another, so at most one can match at a given position. -/
def pseudoNames : List String :=
  ["before", "after", "first-letter", "first-line", "selection", "backdrop",
   "placeholder", "marker", "spelling-error", "grammar-error"]

/-- Case-insensitive literal match of the `i` flag (the alternatives are ASCII):
returns the capture — the original-case text — when some alternative matches at
position `i` of `s`. -/
def matchNameAt (s : List Char) (i : Nat) : Option (List Char) :=
  pseudoNames.findSome? (fun name =>
    let pat := name.data
    let cap := (s.drop i).take pat.length
    if cap.map Char.toLower = pat then some cap else none)

/-- One attempt of `pseudoElementRegex` (`/::?(…)/`) at position `i`: a colon,
a greedy optional second colon, then an alternative.  When two colons are
present but no alternative follows, the single-colon backtrack also fails
because no alternative starts with a colon.  Returns (length of the whole
match, capture). -/
def tryMatchAt (s : List Char) (i : Nat) : Option (Nat × List Char) :=
  if s[i]? = some ':' then
    if s[i + 1]? = some ':' then
      (matchNameAt s (i + 2)).map (fun cap => (2 + cap.length, cap))
    else
      (matchNameAt s (i + 1)).map (fun cap => (1 + cap.length, cap))
  else none

/-- Search positions `li, li + 1, …` for the first successful match attempt;
`fuel` bounds the positions still to try. -/
def findMatchFrom (s : List Char) : Nat → Nat → Option (Nat × Nat × List Char)
  | _, 0 => none
  | li, fuel + 1 =>
      match tryMatchAt s li with
      | some (len, cap) => some (li, len, cap)
      | none => findMatchFrom s (li + 1) fuel

/-- `pseudoElementRegex.exec` from cursor `li`: the first match at a position
at or after `li`, as (index, length, capture).  Positions at or beyond the end
of `s` cannot match (a match needs a colon inside `s`), so trying the
`s.length - li` positions below `s.length` is exhaustive. -/
def pseudoExec (s : List Char) (li : Nat) : Option (Nat × Nat × List Char) :=
  findMatchFrom s li (s.length - li)

theorem tryMatchAt_pos {s : List Char} {i len cap}
    (h : tryMatchAt s i = some (len, cap)) : 1 ≤ len := by
  unfold tryMatchAt at h
  split at h
  · split at h <;>
      · rcases Option.map_eq_some'.1 h with ⟨c, hc, he⟩
        cases he
        omega
  · exact absurd h (by simp)

theorem findMatchFrom_bounds {s : List Char} {fuel li idx len cap}
    (h : findMatchFrom s li fuel = some (idx, len, cap)) :
    li ≤ idx ∧ idx < li + fuel ∧ 1 ≤ len := by
  induction fuel generalizing li with
  | zero => exact absurd h (by simp [findMatchFrom])
  | succ n ih =>
      rw [findMatchFrom] at h
      revert h
      split
      · intro h
        rcases h with ⟨⟩
        rename_i heq
        exact ⟨Nat.le_refl _, by omega, tryMatchAt_pos heq⟩
      · intro h
        have := ih h
        omega

theorem pseudoExec_bounds {s : List Char} {li idx len cap}
    (h : pseudoExec s li = some (idx, len, cap)) :
    li ≤ idx ∧ idx < s.length ∧ 1 ≤ len := by
  have := findMatchFrom_bounds h
  omega

/-- The `while ((match = pseudoElementRegex.exec(selectorText)))` loop: collect
successive matches, each search resuming at `lastIndex = index + length`; when
`exec` fails it resets `lastIndex` to `0` and the loop ends.  Returns the match
list and the final `lastIndex`. -/
def pseudoExecLoop (s : List Char) (li : Nat) :
    List (Nat × Nat × List Char) × Nat :=
  match h : pseudoExec s li with
  | none => ([], 0)
  | some (idx, len, cap) =>
      let r := pseudoExecLoop s (idx + len)
      ((idx, len, cap) :: r.1, r.2)
termination_by s.length - li
decreasing_by
  have := pseudoExec_bounds h
  omega

/-- After any complete scan the shared regex cursor is back at `0`. -/
theorem pseudoExecLoop_resets (s : List Char) (li : Nat) :
    (pseudoExecLoop s li).2 = 0 := by
  rw [pseudoExecLoop]
  split
  · rfl
  · exact pseudoExecLoop_resets s _
termination_by s.length - li
decreasing_by
  rename_i h
  have := pseudoExec_bounds h
  omega

/-- One unfolding of the scan loop, failing case. -/
theorem pseudoExecLoop_of_none {s : List Char} {li : Nat}
    (h : pseudoExec s li = none) : pseudoExecLoop s li = ([], 0) := by
  rw [pseudoExecLoop]
  split
  · rfl
  · rename_i heq
    rw [h] at heq
    exact absurd heq (by simp)

/-- One unfolding of the scan loop, matching case. -/
theorem pseudoExecLoop_of_some {s : List Char} {li idx len : Nat} {cap : List Char}
    (h : pseudoExec s li = some (idx, len, cap)) :
    pseudoExecLoop s li =
      ((idx, len, cap) :: (pseudoExecLoop s (idx + len)).1,
        (pseudoExecLoop s (idx + len)).2) := by
  rw [pseudoExecLoop]
  split
  · rename_i heq
    rw [h] at heq
    exact absurd heq (by simp)
  · rename_i idx2 len2 cap2 heq
    rw [h] at heq
    obtain ⟨rfl, rfl, rfl⟩ : idx = idx2 ∧ len = len2 ∧ cap = cap2 := by
      have := Option.some.inj heq
      exact ⟨congrArg (fun p => p.1) this,
        congrArg (fun p => p.2.1) this, congrArg (fun p => p.2.2) this⟩
    rfl

/-- The body of the while loop for one match: extend `seenPseudos` with
`"::" + match[1]` if new, and recompute `baseSelector` as the selector text
with this match's span cut out. -/
def pseudoLoopStep (selectorText : String) (st : String × Option (List String))
    (m : Nat × Nat × List Char) : String × Option (List String) :=
  let name := "::" ++ String.mk m.2.2
  let seen :=
    match st.2 with
    | some l => if name ∈ l then some l else some (l ++ [name])
    | none => some [name]
  (String.mk (selectorText.data.take m.1 ++ selectorText.data.drop (m.1 + m.2.1)),
    seen)

/-- `(obj[name] || (obj[name] = [])).push(style)` on a string-keyed JS object:
append to an existing key in place, or append a new key at the end. -/
def pushBucket : List (String × List DeclBlock) → String → DeclBlock →
    List (String × List DeclBlock)
  | [], name, style => [(name, [style])]
  | (k, v) :: rest, name, style =>
      if k = name then (k, v ++ [style]) :: rest
      else (k, v) :: pushBucket rest name style

/-- `stylesByPseudoElement[name]` lookup. -/
def bucketGet : List (String × List DeclBlock) → String → List DeclBlock
  | [], _ => []
  | (k, v) :: rest, n => if k = n then v else bucketGet rest n

/-- The reducer body of `getPseudoElementStyles` for one rule, threading the
shared regex cursor: scan the selector, and when pseudo-elements were seen and
the element matches `baseSelector || "*"`, push the rule's block onto every
seen pseudo-element's bucket. -/
def pseudoRuleStep (el : Element)
    (acc : List (String × List DeclBlock) × Nat) (rule : CSSStyleRule) :
    List (String × List DeclBlock) × Nat :=
  let scan := pseudoExecLoop rule.selectorText.data acc.2
  let st := scan.1.foldl (pseudoLoopStep rule.selectorText) (rule.selectorText, none)
  match st.2 with
  | some seen =>
      if el.matchesSel (if st.1 = "" then "*" else st.1) then
        (seen.foldl (fun b name => pushBucket b name rule.style) acc.1, scan.2)
      else (acc.1, scan.2)
  | none => (acc.1, scan.2)

/-- `getPseudoElementStyles`, with the shared regex cursor made explicit: takes
the cursor value at entry and also returns its value at exit.  The result maps
each found pseudo-element name to `getAppliedPropertiesForStyles` of its bucket
(the source's non-null assertion `!` is a cast, so the stored value is the
resolver's output as-is, `null` included). -/
def getPseudoElementStylesS (el : Element) (rules : List CSSStyleRule)
    (lastIndex : Nat) :
    Option (List (String × Option (List (String × String)))) × Nat :=
  let acc := rules.foldl (pseudoRuleStep el) ([], lastIndex)
  let found := acc.1.map (fun p => p.1)
  if found = [] then (none, acc.2)
  else
    (some (found.map (fun name =>
      (name, getAppliedPropertiesForStyles (bucketGet acc.1 name)))), acc.2)

/-- `getPseudoElementStyles` as called in the real module, where the shared
regex cursor is `0` at entry (established at module load and restored by every
call — see the idempotence theorem). -/
def getPseudoElementStyles (el : Element) (rules : List CSSStyleRule) :
    Option (List (String × Option (List (String × String)))) :=
  (getPseudoElementStylesS el rules 0).1

/-- The string the resolver stores for a declaration: the literal value text,
with `" !important"` appended when the declaration is important. -/
def declResolvedValue (d : Decl) : String :=
  d.value ++ (if d.important then " !important" else "")

/-- Lookup through the nullable `properties` object. -/
def getPropO (o : Option (List (String × String))) (n : String) : Option String :=
  match o with
  | none => none
  | some props => getPropS props n

/-- The resolver's walk over an already-flattened list of declarations. -/
def resolveDecls (ds : List Decl) : ResolveState :=
  ds.foldl applyDecl ⟨none, []⟩

theorem getPropS_setPropS (props : List (String × String)) (n m v :  String) :
    getPropS (setPropS props n v) m = if m = n then some v else getPropS props m := by
  induction props with
  | nil =>
      by_cases h : m = n
      · simp [setPropS, getPropS, h]
      · have hnm : ¬n = m := fun hh => h hh.symm
        simp [setPropS, getPropS, h, hnm]
  | cons p rest ih =>
      obtain ⟨k, w⟩ := p
      by_cases hk : k = n
      · subst hk
        by_cases h : m = k
        · simp [setPropS, getPropS, h]
        · have hkm : ¬k = m := fun hh => h hh.symm
          simp [setPropS, getPropS, h, hkm]
      · by_cases h : m = k
        · subst h
          simp [setPropS, getPropS, hk]
        · have hkm : ¬k = m := fun hh => h hh.symm
          simp [setPropS, getPropS, hk, hkm, ih]

theorem mem_setPropS {props : List (String × String)} {n m v w : String}
    (h : (m, w) ∈ setPropS props n v) : (m, w) ∈ props ∨ (m = n ∧ w = v) := by
  induction props with
  | nil => simpa [setPropS] using h
  | cons p rest ih =>
      obtain ⟨k, u⟩ := p
      by_cases hk : k = n
      · subst hk
        rcases (by simpa [setPropS] using h : (m, w) = (k, v) ∨ (m, w) ∈ rest) with h1 | h1
        · right
          exact ⟨congrArg Prod.fst h1, congrArg Prod.snd h1⟩
        · exact Or.inl (List.mem_cons_of_mem _ h1)
      · rcases (by simpa [setPropS, hk] using h :
            (m, w) = (k, u) ∨ (m, w) ∈ setPropS rest n v) with h1 | h1
        · exact Or.inl (by simp [h1])
        · rcases ih h1 with h2 | h2
          · exact Or.inl (List.mem_cons_of_mem _ h2)
          · exact Or.inr h2

theorem mem_addImportant {s : List String} {m n : String} :
    n ∈ addImportant s m ↔ n ∈ s ∨ n = m := by
  unfold addImportant
  split <;> rename_i h
  · constructor
    · exact Or.inl
    · rintro (h1 | h1)
      · exact h1
      · exact h1 ▸ h
  · simp

/-- `applyDecl` always leaves `properties` non-null. -/
theorem applyDecl_isSome (st : ResolveState) (d : Decl) :
    ((applyDecl st d).properties).isSome := by
  unfold applyDecl
  cases st.properties <;> simp
  split <;> simp

theorem foldl_applyDecl_isSome (ds : List Decl) (st : ResolveState)
    (h : st.properties.isSome) : ((ds.foldl applyDecl st).properties).isSome := by
  induction ds generalizing st with
  | nil => exact h
  | cons d rest ih => exact ih _ (applyDecl_isSome st d)

theorem foldl_blocks_isSome (styles : List DeclBlock) (st : ResolveState)
    (h : st.properties.isSome) :
    ((styles.foldl (fun (st : ResolveState) (style : DeclBlock) =>
      style.foldl applyDecl st) st).properties).isSome := by
  induction styles generalizing st with
  | nil => exact h
  | cons b rest ih => exact ih _ (foldl_applyDecl_isSome b st h)

/-- The resolver result is null exactly when no declaration at all was walked. -/
theorem getApplied_none_iff (styles : List DeclBlock) :
    getAppliedPropertiesForStyles styles = none ↔ ∀ b ∈ styles, b = [] := by
  suffices h : ∀ (L : List DeclBlock) (st : ResolveState), st.properties = none →
      ((L.foldl (fun (st : ResolveState) (style : DeclBlock) =>
        style.foldl applyDecl st) st).properties = none ↔ ∀ b ∈ L, b = []) by
    exact h styles ⟨none, []⟩ rfl
  intro L
  induction L with
  | nil => intro st hst; simpa using hst
  | cons b rest ih =>
      intro st hst
      cases b with
      | nil => simpa using ih st hst
      | cons d ds =>
          have hs : ((rest.foldl (fun (st : ResolveState) (style : DeclBlock) =>
              style.foldl applyDecl st) ((d :: ds).foldl applyDecl st)).properties).isSome :=
            foldl_blocks_isSome rest _
              (foldl_applyDecl_isSome ds _ (applyDecl_isSome st d))
          constructor
          · intro hn
            rw [List.foldl_cons] at hn
            rw [hn] at hs
            exact absurd hs (by simp)
          · intro hall
            exact absurd (hall (d :: ds) (List.mem_cons_self _ _)) (by simp)

/-- Every entry of the state after walking `ds` from a state whose entries all
come from `S` comes from a declaration in `S ++ ds`, and carries that
declaration's resolved value text. -/
theorem mem_foldl_applyDecl (ds : List Decl) (st : ResolveState) (S : List Decl)
    (hst : ∀ props, st.properties = some props → ∀ n v, (n, v) ∈ props →
      ∃ d ∈ S, d.name = n ∧ v = declResolvedValue d) :
    ∀ props, ((ds.foldl applyDecl st).properties) = some props → ∀ n v, (n, v) ∈ props →
      ∃ d ∈ S ++ ds, d.name = n ∧ v = declResolvedValue d := by
  induction ds generalizing st S with
  | nil => simpa using hst
  | cons d rest ih =>
      have step : ∀ props, (applyDecl st d).properties = some props → ∀ n v, (n, v) ∈ props →
          ∃ dd ∈ S ++ [d], dd.name = n ∧ v = declResolvedValue dd := by
        intro props hp n v hm
        cases hst0 : st.properties with
        | none =>
            simp only [applyDecl, hst0] at hp
            rcases hp with ⟨⟩
            rcases (by simpa using hm : n = d.name ∧
                v = d.value ++ (if d.important = true then " !important" else "")) with ⟨h1, h2⟩
            exact ⟨d, by simp, h1.symm, by simpa [declResolvedValue] using h2⟩
        | some props0 =>
            simp only [applyDecl, hst0] at hp
            split at hp
            · rcases hp with ⟨⟩
              rcases mem_setPropS hm with h1 | ⟨h1, h2⟩
              · rcases hst props0 hst0 n v h1 with ⟨dd, hdd, hh⟩
                exact ⟨dd, List.mem_append_left _ hdd, hh⟩
              · exact ⟨d, by simp, h1.symm, by simpa [declResolvedValue] using h2⟩
            · obtain rfl := Option.some.inj hp
              rcases hst props0 hst0 n v hm with ⟨dd, hdd, hh⟩
              exact ⟨dd, List.mem_append_left _ hdd, hh⟩
      have h2 := ih (applyDecl st d) (S ++ [d]) step
      simpa [List.append_assoc] using h2

/-- The `important` set after a walk holds exactly the names of the important
declarations walked so far. -/
theorem mem_important_foldl (ds : List Decl) (st : ResolveState) (n : String) :
    (n ∈ (ds.foldl applyDecl st).important) ↔
      n ∈ st.important ∨ ∃ d ∈ ds, d.name = n ∧ d.important = true := by
  induction ds generalizing st with
  | nil => simp
  | cons d rest ih =>
      rw [List.foldl_cons, ih]
      have himp : (applyDecl st d).important =
          if d.important then addImportant st.important d.name else st.important := rfl
      rw [himp]
      by_cases hd : d.important
      · simp only [hd, if_pos, mem_addImportant, List.mem_cons]
        constructor
        · rintro ((h | h) | h)
          · exact Or.inl h
          · exact Or.inr ⟨d, by simp, h.symm, hd⟩
          · rcases h with ⟨e, he, hh⟩
            exact Or.inr ⟨e, Or.inr he, hh⟩
        · rintro (h | ⟨e, (he | he), hh⟩)
          · exact Or.inl (Or.inl h)
          · exact Or.inl (Or.inr (he ▸ hh.1).symm)
          · exact Or.inr ⟨e, he, hh⟩
      · simp only [hd, if_neg, Bool.false_eq_true]
        constructor
        · rintro (h | ⟨e, he, hh⟩)
          · exact Or.inl h
          · exact Or.inr ⟨e, List.mem_cons_of_mem _ he, hh⟩
        · rintro (h | ⟨e, he, hh⟩)
          · exact Or.inl h
          · rcases List.mem_cons.1 he with rfl | he2
            · exact absurd hh.2 (by simpa using hd)
            · exact Or.inr ⟨e, he2, hh⟩

theorem getPropO_some (props : List (String × String)) (n : String) :
    getPropO (some props) n = getPropS props n := rfl

/-- The `properties` field written by one step of the inner loop, null case. -/
theorem applyDecl_properties_none {st : ResolveState} (d : Decl)
    (h : st.properties = none) :
    (applyDecl st d).properties = some [(d.name, declResolvedValue d)] := by
  simp [applyDecl, h, declResolvedValue]

/-- The `properties` field written by one step of the inner loop, non-null
case. -/
theorem applyDecl_properties_some {st : ResolveState} (d : Decl)
    {props : List (String × String)} (h : st.properties = some props) :
    (applyDecl st d).properties =
      if getPropS props d.name = none ∨ (d.important = true ∧ d.name ∉ st.important) then
        some (setPropS props d.name (declResolvedValue d))
      else some props := by
  by_cases hcond : getPropS props d.name = none ∨
      (d.important = true ∧ d.name ∉ st.important)
  · simp [applyDecl, h, declResolvedValue, hcond]
  · simp [applyDecl, h, declResolvedValue, hcond]

/-- Walking one declaration leaves a property unresolved exactly when it was
unresolved before and the declaration is for a different property. -/
theorem getPropO_applyDecl_none (st : ResolveState) (d : Decl) (n : String) :
    getPropO (applyDecl st d).properties n = none ↔
      getPropO st.properties n = none ∧ d.name ≠ n := by
  cases hst : st.properties with
  | none =>
      rw [applyDecl_properties_none d hst, getPropO_some]
      simp only [getPropO, getPropS]
      constructor
      · intro h
        by_cases he : d.name = n
        · simp [he] at h
        · exact ⟨by trivial, he⟩
      · rintro ⟨-, hne⟩
        simp [hne]
  | some props =>
      rw [applyDecl_properties_some d hst]
      by_cases hcond : getPropS props d.name = none ∨
          (d.important = true ∧ d.name ∉ st.important)
      · simp only [if_pos hcond, hst, getPropO_some]
        rw [getPropS_setPropS]
        by_cases h : n = d.name
        · subst h
          simp
        · have hdn : d.name ≠ n := fun hh => h hh.symm
          simp [h, hdn]
      · simp only [if_neg hcond, hst, getPropO_some]
        by_cases h : d.name = n
        · subst h
          have h1 : getPropS props d.name ≠ none := fun hh => hcond (Or.inl hh)
          simp [h1]
        · simp [h]

/-- A property is unresolved after a walk exactly when no walked declaration
names it. -/
theorem getPropO_foldl_none (ds : List Decl) (st : ResolveState) (n : String) :
    getPropO (ds.foldl applyDecl st).properties n = none ↔
      getPropO st.properties n = none ∧ ∀ d ∈ ds, d.name ≠ n := by
  induction ds generalizing st with
  | nil => simp
  | cons d rest ih =>
      rw [List.foldl_cons, ih, getPropO_applyDecl_none]
      constructor
      · rintro ⟨⟨h1, h2⟩, h3⟩
        refine ⟨h1, ?_⟩
        intro e he
        rcases List.mem_cons.1 he with rfl | he2
        · exact h2
        · exact h3 e he2
      · rintro ⟨h1, h2⟩
        exact ⟨⟨h1, h2 d (by simp)⟩, fun e he => h2 e (List.mem_cons_of_mem _ he)⟩

/-- The per-declaration overwrite rule, read off `applyDecl`: the walked
declaration's value is stored iff the property is unresolved or the
declaration is important and the property's name is not yet in the
`important` set; otherwise the stored value is untouched. -/
theorem getPropO_applyDecl_self (st : ResolveState) (d : Decl) :
    (((getPropO st.properties d.name = none) ∨
        (d.important = true ∧ d.name ∉ st.important)) →
      getPropO (applyDecl st d).properties d.name = some (declResolvedValue d)) ∧
    (¬ ((getPropO st.properties d.name = none) ∨
        (d.important = true ∧ d.name ∉ st.important)) →
      getPropO (applyDecl st d).properties d.name = getPropO st.properties d.name) := by
  cases hst : st.properties with
  | none =>
      refine ⟨fun _ => ?_, fun hn => absurd (Or.inl (by simp [hst, getPropO])) hn⟩
      rw [applyDecl_properties_none d hst, getPropO_some]
      simp [getPropS]
  | some props =>
      constructor
      · intro hcond
        have hcond2 : getPropS props d.name = none ∨
            (d.important = true ∧ d.name ∉ st.important) := by
          simpa [hst, getPropO] using hcond
        rw [applyDecl_properties_some d hst, if_pos hcond2, getPropO_some,
          getPropS_setPropS, if_pos rfl]
      · intro hcond
        have hcond2 : ¬ (getPropS props d.name = none ∨
            (d.important = true ∧ d.name ∉ st.important)) := by
          simpa [hst, getPropO] using hcond
        rw [applyDecl_properties_some d hst, if_neg hcond2]

/-- C1, counterexample: the claim says every value stored in the resolved map
is the literal declaration value text with no " !important" suffix, even when
the winning declaration was important.  For the single block
`{color: red !important}` the resolver stores "red !important", not "red". -/
theorem claim_C1_counterexample :
    getAppliedPropertiesForStyles [[⟨"color", "red", true⟩]] =
      some [("color", "red !important")] ∧
    getAppliedPropertiesForStyles [[⟨"color", "red", true⟩]] ≠
      some [("color", "red")] :=
  ⟨rfl, by decide⟩

/-- C1, amended: every value stored in the resolved style map is the literal
value text of some input declaration for that property name, suffixed with
" !important" exactly when that declaration was marked important (the
importance marker is NOT stripped from the exposed value). -/
theorem claim_C1 (styles : List DeclBlock) (props : List (String × String))
    (h : getAppliedPropertiesForStyles styles = some props) :
    ∀ n v, (n, v) ∈ props →
      ∃ b ∈ styles, ∃ d ∈ b, d.name = n ∧ v = declResolvedValue d := by
  intro n v hm
  have hb : getAppliedPropertiesForStyles styles =
      ((styles.flatten).foldl applyDecl ⟨none, []⟩).properties := by
    unfold getAppliedPropertiesForStyles
    rw [List.foldl_flatten]
  rw [hb] at h
  have hinit : ∀ props0, (⟨none, []⟩ : ResolveState).properties = some props0 →
      ∀ n v, (n, v) ∈ props0 →
        ∃ d ∈ ([] : List Decl), d.name = n ∧ v = declResolvedValue d := by
    intro props0 h0
    exact absurd h0 (by simp)
  rcases mem_foldl_applyDecl styles.flatten ⟨none, []⟩ [] hinit props h n v hm with
    ⟨d, hd, hname, hval⟩
  rcases List.mem_flatten.1 (by simpa using hd) with ⟨b, hb2, hdb⟩
  exact ⟨b, hb2, d, hdb, hname, hval⟩

/-- C1 witness: instantiates the amended theorem on a concrete input. -/
theorem claim_C1_witness :
    getAppliedPropertiesForStyles [[⟨"padding", "0", false⟩]] =
      some [("padding", "0")] ∧
    (∃ b ∈ [[(⟨"padding", "0", false⟩ : Decl)]], ∃ d ∈ b,
      d.name = "padding" ∧ "0" = declResolvedValue d) :=
  ⟨rfl, claim_C1 [[⟨"padding", "0", false⟩]] [("padding", "0")] rfl
    "padding" "0" (by decide)⟩

/-- C8, counterexample: the claim says the resolver returns an absent result
iff the input sequence of blocks is empty; but a non-empty sequence holding
one empty block (an element with no inline style, say) also yields null. -/
theorem claim_C8_counterexample :
    getAppliedPropertiesForStyles [([] : DeclBlock)] = none ∧
    ([([] : DeclBlock)] : List DeclBlock) ≠ ([] : List DeclBlock) :=
  ⟨rfl, by simp⟩

/-- C8, amended: the cascade resolver returns an absent result iff every block
of its input sequence is empty (in particular for the empty sequence); as soon
as some block holds a declaration, a resolved style map is returned. -/
theorem claim_C8 (styles : List DeclBlock) :
    getAppliedPropertiesForStyles styles = none ↔ ∀ b ∈ styles, b = [] :=
  getApplied_none_iff styles

/-- C2, amended: walking the flattened declaration sequence highest-priority
first, the next declaration's (suffixed) value is stored iff no value is
resolved yet for its property or it is important and no earlier important
declaration for the property exists; otherwise the resolved value is
unchanged.  On the claim's two examples the winning declarations are `red`
and `blue` as claimed, but the stored values carry the " !important" suffix
("red !important" / "blue !important"), not the bare literal text. -/
theorem claim_C2 (ds : List Decl) (d : Decl) :
    (((getPropO (resolveDecls ds).properties d.name = none) ∨
        (d.important = true ∧ ¬ ∃ e ∈ ds, e.name = d.name ∧ e.important = true)) →
      getPropO (applyDecl (resolveDecls ds) d).properties d.name =
        some (declResolvedValue d)) ∧
    (¬ ((getPropO (resolveDecls ds).properties d.name = none) ∨
        (d.important = true ∧ ¬ ∃ e ∈ ds, e.name = d.name ∧ e.important = true)) →
      getPropO (applyDecl (resolveDecls ds) d).properties d.name =
        getPropO (resolveDecls ds).properties d.name) ∧
    (∀ styles : List DeclBlock, getAppliedPropertiesForStyles styles =
      (resolveDecls styles.flatten).properties) ∧
    getAppliedPropertiesForStyles [[⟨"color", "red", true⟩], [⟨"color", "blue", true⟩]] =
      some [("color", "red !important")] ∧
    getAppliedPropertiesForStyles
        [[⟨"color", "red", false⟩], [⟨"color", "blue", true⟩], [⟨"color", "green", false⟩]] =
      some [("color", "blue !important")] := by
  have hset : (d.name ∈ (resolveDecls ds).important) ↔
      ∃ e ∈ ds, e.name = d.name ∧ e.important = true := by
    unfold resolveDecls
    rw [mem_important_foldl]
    simp
  refine ⟨?_, ?_, ?_, rfl, rfl⟩
  · intro hcond
    refine (getPropO_applyDecl_self (resolveDecls ds) d).1 ?_
    rcases hcond with h | ⟨h1, h2⟩
    · exact Or.inl h
    · exact Or.inr ⟨h1, fun hm => h2 (hset.1 hm)⟩
  · intro hcond
    refine (getPropO_applyDecl_self (resolveDecls ds) d).2 ?_
    intro hc
    refine hcond ?_
    rcases hc with h | ⟨h1, h2⟩
    · exact Or.inl h
    · exact Or.inr ⟨h1, fun he => h2 (hset.2 he)⟩
  · intro styles
    unfold getAppliedPropertiesForStyles resolveDecls
    rw [List.foldl_flatten]

/-- C2 counterexample: for the priority-ordered blocks
`[{color: red !important}, {color: blue !important}]` the claim says the
resolved color is `red`; the stored resolved value is in fact
"red !important" (the first important declaration does win, but the exposed
value carries the importance suffix). -/
theorem claim_C2_counterexample :
    getAppliedPropertiesForStyles [[⟨"color", "red", true⟩], [⟨"color", "blue", true⟩]] =
      some [("color", "red !important")] ∧
    getAppliedPropertiesForStyles [[⟨"color", "red", true⟩], [⟨"color", "blue", true⟩]] ≠
      some [("color", "red")] :=
  ⟨rfl, by decide⟩

/-- C2 witness: a non-important declaration walked after an important one for
the same property does not overwrite it. -/
theorem claim_C2_witness :
    (¬ ((getPropO (resolveDecls [⟨"color", "red", true⟩]).properties "color" = none) ∨
        ((⟨"color", "blue", false⟩ : Decl).important = true ∧
          ¬ ∃ e ∈ [(⟨"color", "red", true⟩ : Decl)], e.name = "color" ∧
            e.important = true))) ∧
    getPropO (applyDecl (resolveDecls [⟨"color", "red", true⟩])
        ⟨"color", "blue", false⟩).properties "color" =
      getPropO (resolveDecls [⟨"color", "red", true⟩]).properties "color" :=
  ⟨by decide, (claim_C2 [⟨"color", "red", true⟩] ⟨"color", "blue", false⟩).2.1 (by decide)⟩

/-- C3, counterexample: the claim says inline non-important `color:red`
combined with a matching `color: blue !important` sheet rule resolves `color`
to `blue`; the blue declaration does win, but the stored resolved value is
"blue !important", not "blue". -/
theorem claim_C3_counterexample :
    getElementStyles ⟨fun _ => true, [⟨"color", "red", false⟩]⟩
        [⟨"div", [⟨"color", "blue", true⟩]⟩] =
      some [("color", "blue !important")] ∧
    getElementStyles ⟨fun _ => true, [⟨"color", "red", false⟩]⟩
        [⟨"div", [⟨"color", "blue", true⟩]⟩] ≠
      some [("color", "blue")] :=
  ⟨rfl, by decide⟩

/-- C3, amended: `getElementStyles` always passes the element's inline block
first, ahead of all matching sheet rule blocks, to the cascade resolver; and a
non-important inline `color:red` with a matching `color: blue !important`
sheet rule resolves `color` to the blue declaration's stored value
"blue !important". -/
theorem claim_C3 (el : Element) (rules : List CSSStyleRule) :
    getElementStyles el rules =
      getAppliedPropertiesForStyles (el.style ::
        (rules.filter (fun rule => el.matchesSel rule.selectorText)).map
          (fun rule => rule.style)) ∧
    getElementStyles ⟨fun _ => true, [⟨"color", "red", false⟩]⟩
        [⟨"div", [⟨"color", "blue", true⟩]⟩] =
      some [("color", "blue !important")] :=
  ⟨rfl, rfl⟩

theorem getStyleRulesFromSheet_cons (win : Window) (r : CSSRule)
    (rest : List CSSRule) :
    getStyleRulesFromSheet win (r :: rest) =
      getStyleRulesFromSheet win rest ++ collectRule win r := by
  rw [getStyleRulesFromSheet]

/-- C6: collection emits only style rules: a media or supports group whose
condition evaluates false contributes zero rules (its subtree is neither
emitted nor recursed into, so the whole sheet collects as if the group were
absent), and any other rule kind contributes zero rules. -/
theorem claim_C6 (win : Window) (rest : List CSSRule) :
    (∀ (m : String) (rs : List CSSRule) (mm : String → Bool),
      win.matchMedia = some mm → mm m = false →
        getStyleRulesFromSheet win (CSSRule.mediaRule m rs :: rest) =
          getStyleRulesFromSheet win rest) ∧
    (∀ (c : String) (rs : List CSSRule), win.supports c = false →
        getStyleRulesFromSheet win (CSSRule.supportsRule c rs :: rest) =
          getStyleRulesFromSheet win rest) ∧
    getStyleRulesFromSheet win (CSSRule.otherRule :: rest) =
      getStyleRulesFromSheet win rest := by
  refine ⟨?_, ?_, ?_⟩
  · intro m rs mm hmm hf
    rw [getStyleRulesFromSheet_cons]
    have hc : collectRule win (CSSRule.mediaRule m rs) = [] := by
      rw [collectRule, hmm]
      simp [hf]
    rw [hc, List.append_nil]
  · intro c rs hf
    rw [getStyleRulesFromSheet_cons]
    have hc : collectRule win (CSSRule.supportsRule c rs) = [] := by
      rw [collectRule]
      simp [hf]
    rw [hc, List.append_nil]
  · rw [getStyleRulesFromSheet_cons]
    have hc : collectRule win CSSRule.otherRule = [] := by
      rw [collectRule]
    rw [hc, List.append_nil]

/-- C6 witness: a concrete false-condition media group and supports group each
contribute nothing. -/
theorem claim_C6_witness :
    ((⟨some (fun _ => false), fun _ => false⟩ : Window).matchMedia =
        some (fun _ => false) ∧
      (fun (_ : String) => false) "screen" = false ∧
      (⟨some (fun _ => false), fun _ => false⟩ : Window).supports "(a:b)" = false) ∧
    getStyleRulesFromSheet ⟨some (fun _ => false), fun _ => false⟩
        (CSSRule.mediaRule "screen" [CSSRule.styleRule "div" []] ::
          [CSSRule.styleRule "p" []]) =
      getStyleRulesFromSheet ⟨some (fun _ => false), fun _ => false⟩
        [CSSRule.styleRule "p" []] ∧
    getStyleRulesFromSheet ⟨some (fun _ => false), fun _ => false⟩
        (CSSRule.supportsRule "(a:b)" [CSSRule.styleRule "div" []] ::
          [CSSRule.styleRule "p" []]) =
      getStyleRulesFromSheet ⟨some (fun _ => false), fun _ => false⟩
        [CSSRule.styleRule "p" []] :=
  ⟨⟨rfl, rfl, rfl⟩,
    (claim_C6 ⟨some (fun _ => false), fun _ => false⟩ [CSSRule.styleRule "p" []]).1
      "screen" [CSSRule.styleRule "div" []] (fun _ => false) rfl rfl,
    (claim_C6 ⟨some (fun _ => false), fun _ => false⟩ [CSSRule.styleRule "p" []]).2.1
      "(a:b)" [CSSRule.styleRule "div" []] rfl⟩

/-- C4: with a consistent external comparator, the rule list produced by
`getDocumentStyleRules` is sorted in descending specificity (no rule with
strictly higher specificity appears after a lower one), equal-comparing rules
keep the collector's discovery order (the sort is stable), and the discovery
order within a flat sheet is reverse declaration order. -/
theorem claim_C4 (compare : String → String → Int)
    (htrans : ∀ a b c, compare a b ≤ 0 → compare b c ≤ 0 → compare a c ≤ 0)
    (htotal : ∀ a b, compare a b ≤ 0 ∨ compare b a ≤ 0)
    (hsymm : ∀ a b, compare a b = 0 → compare b a = 0)
    (win : Window) (styleSheets : List (List CSSRule)) :
    List.Pairwise (fun a b => ¬ 0 < compare b.selectorText a.selectorText)
        (getDocumentStyleRules compare win styleSheets) ∧
    (∀ s : String,
      (getDocumentStyleRules compare win styleSheets).filter
          (fun r => decide (compare r.selectorText s = 0)) =
        ((styleSheets.map (getStyleRulesFromSheet win)).foldl
            (fun a b => a ++ b) []).filter
          (fun r => decide (compare r.selectorText s = 0))) ∧
    (∀ l : List (String × DeclBlock),
      getStyleRulesFromSheet win (l.map (fun p => CSSRule.styleRule p.1 p.2)) =
        (l.map (fun p => CSSStyleRule.mk p.1 p.2)).reverse) := by
  have trans2 : ∀ a b c : CSSStyleRule,
      (fun a b : CSSStyleRule =>
        decide (compare b.selectorText a.selectorText ≤ 0)) a b →
      (fun a b : CSSStyleRule =>
        decide (compare b.selectorText a.selectorText ≤ 0)) b c →
      (fun a b : CSSStyleRule =>
        decide (compare b.selectorText a.selectorText ≤ 0)) a c := by
    intro a b c h1 h2
    simp only [decide_eq_true_iff] at h1 h2 ⊢
    exact htrans _ _ _ h2 h1
  have total2 : ∀ a b : CSSStyleRule,
      ((fun a b : CSSStyleRule =>
        decide (compare b.selectorText a.selectorText ≤ 0)) a b ||
       (fun a b : CSSStyleRule =>
        decide (compare b.selectorText a.selectorText ≤ 0)) b a) := by
    intro a b
    rcases htotal b.selectorText a.selectorText with h | h <;> simp [h]
  refine ⟨?_, ?_, ?_⟩
  · unfold getDocumentStyleRules
    refine (List.sorted_mergeSort trans2 total2 _).imp ?_
    intro a b hab
    have h2 : compare b.selectorText a.selectorText ≤ 0 := by
      simpa using hab
    omega
  · intro s
    unfold getDocumentStyleRules
    have hface : ∀ flat : List CSSStyleRule,
        (flat.mergeSort (fun a b =>
            decide (compare b.selectorText a.selectorText ≤ 0))).filter
          (fun r => decide (compare r.selectorText s = 0)) =
        flat.filter (fun r => decide (compare r.selectorText s = 0)) := by
      intro flat
      have hc1 : List.Sublist
          (flat.filter (fun r => decide (compare r.selectorText s = 0))) flat :=
        List.filter_sublist flat
      have hpair : (flat.filter
            (fun r => decide (compare r.selectorText s = 0))).Pairwise
          (fun a b => decide (compare b.selectorText a.selectorText ≤ 0) = true) := by
        apply List.pairwise_of_forall_mem_list
        intro a ha b hb
        have ha2 : compare a.selectorText s = 0 := by
          simpa using (List.mem_filter.1 ha).2
        have hb2 : compare b.selectorText s = 0 := by
          simpa using (List.mem_filter.1 hb).2
        have hsa : compare s a.selectorText = 0 := hsymm _ _ ha2
        simp only [decide_eq_true_iff]
        exact htrans _ _ _ (le_of_eq hb2) (le_of_eq hsa)
      have hsub : List.Sublist
          (flat.filter (fun r => decide (compare r.selectorText s = 0)))
          (flat.mergeSort (fun a b =>
            decide (compare b.selectorText a.selectorText ≤ 0))) :=
        List.sublist_mergeSort trans2 total2 hpair hc1
      have hself : (flat.filter (fun r => decide (compare r.selectorText s = 0))).filter
            (fun r => decide (compare r.selectorText s = 0)) =
          flat.filter (fun r => decide (compare r.selectorText s = 0)) :=
        List.filter_eq_self.2 (fun a ha => (List.mem_filter.1 ha).2)
      have hsub2 : List.Sublist
          (flat.filter (fun r => decide (compare r.selectorText s = 0)))
          ((flat.mergeSort (fun a b =>
            decide (compare b.selectorText a.selectorText ≤ 0))).filter
            (fun r => decide (compare r.selectorText s = 0))) := by
        have := hsub.filter (fun r => decide (compare r.selectorText s = 0))
        rwa [hself] at this
      have hlen : ((flat.mergeSort (fun a b =>
            decide (compare b.selectorText a.selectorText ≤ 0))).filter
            (fun r => decide (compare r.selectorText s = 0))).length =
          (flat.filter (fun r => decide (compare r.selectorText s = 0))).length :=
        ((List.mergeSort_perm flat _).filter _).length_eq
      exact (hsub2.eq_of_length hlen.symm).symm
    exact hface _
  · intro l
    induction l with
    | nil => rfl
    | cons p rest ih =>
        rw [List.map_cons, getStyleRulesFromSheet_cons, ih, List.map_cons,
          List.reverse_cons]
        rw [collectRule]

/-- C4 witness: the hypotheses hold for the trivial comparator, and the
conclusion is instantiated on a two-sheet document and a one-rule sheet. -/
theorem claim_C4_witness :
    (∀ a b c : String, (fun _ _ : String => (0 : Int)) a b ≤ 0 →
      (fun _ _ : String => (0 : Int)) b c ≤ 0 →
      (fun _ _ : String => (0 : Int)) a c ≤ 0) ∧
    (∀ a b : String, (fun _ _ : String => (0 : Int)) a b ≤ 0 ∨
      (fun _ _ : String => (0 : Int)) b a ≤ 0) ∧
    (∀ a b : String, (fun _ _ : String => (0 : Int)) a b = 0 →
      (fun _ _ : String => (0 : Int)) b a = 0) ∧
    List.Pairwise
      (fun a b : CSSStyleRule =>
        ¬ 0 < (fun _ _ : String => (0 : Int)) b.selectorText a.selectorText)
      (getDocumentStyleRules (fun _ _ => 0) ⟨none, fun _ => false⟩
        [[CSSRule.styleRule "a" []], [CSSRule.styleRule "b" []]]) ∧
    getStyleRulesFromSheet ⟨none, fun _ => false⟩
        ([("p", ([] : DeclBlock))].map (fun p => CSSRule.styleRule p.1 p.2)) =
      ([("p", ([] : DeclBlock))].map (fun p => CSSStyleRule.mk p.1 p.2)).reverse :=
  ⟨fun _ _ _ h _ => h, fun _ _ => Or.inl (Int.le_refl 0), fun _ _ _ => rfl,
    (claim_C4 (fun _ _ => 0) (fun _ _ _ h _ => h)
      (fun _ _ => Or.inl (Int.le_refl 0)) (fun _ _ _ => rfl)
      ⟨none, fun _ => false⟩
      [[CSSRule.styleRule "a" []], [CSSRule.styleRule "b" []]]).1,
    (claim_C4 (fun _ _ => 0) (fun _ _ _ h _ => h)
      (fun _ _ => Or.inl (Int.le_refl 0)) (fun _ _ _ => rfl)
      ⟨none, fun _ => false⟩
      [[CSSRule.styleRule "a" []], [CSSRule.styleRule "b" []]]).2.2
      [("p", ([] : DeclBlock))]⟩

/-- Append-if-absent, the effect of the `seenPseudos` accumulation for one
name. -/
def addDistinct (l : List String) (n : String) : List String :=
  if n ∈ l then l else l ++ [n]

/-- The match list of a full scan of `sel` from cursor `0`. -/
def pseudoMatches (sel : String) : List (Nat × Nat × List Char) :=
  (pseudoExecLoop sel.data 0).1

/-- The distinct pseudo-element names seen while scanning `sel`, in first-seen
order, each in its original letter case prefixed with `::`. -/
def pseudoSeen (sel : String) : List String :=
  ((pseudoMatches sel).map (fun m => "::" ++ String.mk m.2.2)).foldl addDistinct []

/-- The base selector the scan loop leaves behind: `sel` with the span of the
last-scanned occurrence removed (earlier occurrences stay embedded); `sel`
itself when nothing matched. -/
def baseSelectorOf (sel : String) : String :=
  match (pseudoMatches sel).getLast? with
  | none => sel
  | some m => String.mk (sel.data.take m.1 ++ sel.data.drop (m.1 + m.2.1))

/-- `baseSelector || "*"`: the selector actually passed to `el.matches`. -/
def effectiveBase (sel : String) : String :=
  if baseSelectorOf sel = "" then "*" else baseSelectorOf sel

theorem pseudoLoopStep_some (sel : String) (bs : String) (l : List String)
    (m : Nat × Nat × List Char) :
    pseudoLoopStep sel (bs, some l) m =
      (String.mk (sel.data.take m.1 ++ sel.data.drop (m.1 + m.2.1)),
        some (addDistinct l ("::" ++ String.mk m.2.2))) := by
  unfold pseudoLoopStep addDistinct
  by_cases hmem : ("::" ++ String.mk m.2.2) ∈ l <;> simp [hmem]

theorem pseudoLoopStep_none (sel : String) (bs : String)
    (m : Nat × Nat × List Char) :
    pseudoLoopStep sel (bs, none) m =
      (String.mk (sel.data.take m.1 ++ sel.data.drop (m.1 + m.2.1)),
        some ["::" ++ String.mk m.2.2]) := rfl

theorem foldl_pseudoLoopStep_snd_some (ms : List (Nat × Nat × List Char))
    (sel : String) (bs : String) (l : List String) :
    ((ms.foldl (pseudoLoopStep sel) (bs, some l)).2 =
      some ((ms.map (fun m => "::" ++ String.mk m.2.2)).foldl addDistinct l)) := by
  induction ms generalizing bs l with
  | nil => rfl
  | cons m rest ih =>
      rw [List.foldl_cons, pseudoLoopStep_some, List.map_cons, List.foldl_cons]
      exact ih _ _

/-- The `seenPseudos` variable after the scan loop: `null` when nothing
matched, otherwise the distinct names in first-seen order. -/
theorem foldl_pseudoLoopStep_snd (ms : List (Nat × Nat × List Char))
    (sel : String) (bs : String) :
    ((ms.foldl (pseudoLoopStep sel) (bs, none)).2 =
      if ms = [] then none
      else some ((ms.map (fun m => "::" ++ String.mk m.2.2)).foldl addDistinct [])) := by
  cases ms with
  | nil => rfl
  | cons m rest =>
      rw [List.foldl_cons, pseudoLoopStep_none]
      rw [foldl_pseudoLoopStep_snd_some]
      simp [addDistinct]

/-- The `baseSelector` variable after the scan loop, when something matched:
the selector text with exactly the last match's span removed. -/
theorem foldl_pseudoLoopStep_fst (ms : List (Nat × Nat × List Char))
    (sel : String) (st0 : String × Option (List String))
    (mlast : Nat × Nat × List Char) (hlast : ms.getLast? = some mlast) :
    (ms.foldl (pseudoLoopStep sel) st0).1 =
      String.mk (sel.data.take mlast.1 ++ sel.data.drop (mlast.1 + mlast.2.1)) := by
  induction ms generalizing st0 with
  | nil => exact absurd hlast (by simp)
  | cons m rest ih =>
      cases rest with
      | nil =>
          obtain rfl := Option.some.inj (by simpa using hlast)
          rw [List.foldl_cons, List.foldl_nil]
          obtain ⟨bs0, sp0⟩ := st0
          cases sp0 with
          | none => rw [pseudoLoopStep_none]
          | some l => rw [pseudoLoopStep_some]
      | cons m2 rest2 =>
          rw [List.foldl_cons]
          exact ih _ (by simpa using hlast)

/-- Characterization of one reducer step of `getPseudoElementStyles` starting
from a restored cursor: the cursor comes back to `0`, and the buckets are
extended by one push per seen name iff the scan found pseudo-elements and the
element matches the effective base selector. -/
theorem pseudoRuleStep_eq (el : Element) (b : List (String × List DeclBlock))
    (rule : CSSStyleRule) :
    pseudoRuleStep el (b, 0) rule =
      (if pseudoMatches rule.selectorText = [] then b
       else if el.matchesSel (effectiveBase rule.selectorText) then
         (pseudoSeen rule.selectorText).foldl
           (fun bb name => pushBucket bb name rule.style) b
       else b, 0) := by
  unfold pseudoRuleStep
  dsimp only
  have hreset := pseudoExecLoop_resets rule.selectorText.data 0
  rw [show (pseudoExecLoop rule.selectorText.data 0).1 =
      pseudoMatches rule.selectorText from rfl, hreset]
  by_cases hms : pseudoMatches rule.selectorText = []
  · rw [if_pos hms, hms, List.foldl_nil]
  · rw [if_neg hms]
    obtain ⟨mlast, hlast⟩ : ∃ m, (pseudoMatches rule.selectorText).getLast? = some m := by
      cases hh : (pseudoMatches rule.selectorText).getLast? with
      | none => exact absurd (List.getLast?_eq_none_iff.1 hh) hms
      | some m => exact ⟨m, rfl⟩
    have hsnd := foldl_pseudoLoopStep_snd (pseudoMatches rule.selectorText)
      rule.selectorText rule.selectorText
    rw [if_neg hms] at hsnd
    have hfst := foldl_pseudoLoopStep_fst (pseudoMatches rule.selectorText)
      rule.selectorText (rule.selectorText, none) mlast hlast
    have hbase : ((pseudoMatches rule.selectorText).foldl
        (pseudoLoopStep rule.selectorText) (rule.selectorText, none)).1 =
        baseSelectorOf rule.selectorText := by
      rw [hfst]
      unfold baseSelectorOf
      rw [hlast]
    rw [hsnd]
    dsimp only
    rw [hbase]
    have heff : (if baseSelectorOf rule.selectorText = "" then "*"
        else baseSelectorOf rule.selectorText) = effectiveBase rule.selectorText := rfl
    rw [heff]
    by_cases hm : el.matchesSel (effectiveBase rule.selectorText)
    · rw [if_pos hm, if_pos hm]
      rfl
    · rw [if_neg hm, if_neg hm]

theorem bucketGet_pushBucket_same (b : List (String × List DeclBlock))
    (n : String) (style : DeclBlock) :
    bucketGet (pushBucket b n style) n = bucketGet b n ++ [style] := by
  induction b with
  | nil => simp [pushBucket, bucketGet]
  | cons p rest ih =>
      obtain ⟨k, v⟩ := p
      by_cases hk : k = n
      · simp [pushBucket, bucketGet, hk]
      · simp [pushBucket, bucketGet, hk, ih]

theorem bucketGet_pushBucket_other (b : List (String × List DeclBlock))
    (n m : String) (style : DeclBlock) (h : m ≠ n) :
    bucketGet (pushBucket b n style) m = bucketGet b m := by
  have hnm : ¬n = m := fun hh => h hh.symm
  induction b with
  | nil => simp [pushBucket, bucketGet, hnm]
  | cons p rest ih =>
      obtain ⟨k, v⟩ := p
      by_cases hk : k = n
      · subst hk
        simp [pushBucket, bucketGet, hnm]
      · by_cases hm2 : k = m
        · subst hm2
          simp [pushBucket, bucketGet, hk]
        · simp [pushBucket, bucketGet, hk, hm2, ih]

theorem bucketGet_foldPush_not_mem (seen : List String)
    (b : List (String × List DeclBlock)) (style : DeclBlock) (name : String)
    (h : name ∉ seen) :
    bucketGet (seen.foldl (fun bb nm => pushBucket bb nm style) b) name =
      bucketGet b name := by
  induction seen generalizing b with
  | nil => rfl
  | cons nm rest ih =>
      rw [List.foldl_cons, ih _ (fun hh => h (List.mem_cons_of_mem _ hh)),
        bucketGet_pushBucket_other]
      exact fun hh => h (hh ▸ List.mem_cons_self _ _)

theorem bucketGet_foldPush (seen : List String)
    (b : List (String × List DeclBlock)) (style : DeclBlock) (name : String)
    (hnd : seen.Nodup) :
    bucketGet (seen.foldl (fun bb nm => pushBucket bb nm style) b) name =
      bucketGet b name ++ (if name ∈ seen then [style] else []) := by
  induction seen generalizing b with
  | nil => simp
  | cons nm rest ih =>
      rw [List.foldl_cons]
      by_cases hname : name = nm
      · subst hname
        have hnot : name ∉ rest := (List.nodup_cons.1 hnd).1
        rw [bucketGet_foldPush_not_mem rest _ style name hnot,
          bucketGet_pushBucket_same]
        simp
      · rw [ih _ (List.nodup_cons.1 hnd).2,
          bucketGet_pushBucket_other _ _ _ _ hname]
        simp [List.mem_cons, hname]

theorem nodup_addDistinct (l : List String) (n : String) (h : l.Nodup) :
    (addDistinct l n).Nodup := by
  unfold addDistinct
  split
  · exact h
  · rename_i hmem
    simpa [List.nodup_append, h] using hmem

theorem mem_addDistinct (l : List String) (n m : String) :
    m ∈ addDistinct l n ↔ m ∈ l ∨ m = n := by
  unfold addDistinct
  split
  · rename_i hmem
    constructor
    · exact Or.inl
    · rintro (h | rfl)
      · exact h
      · exact hmem
  · simp

theorem nodup_foldl_addDistinct (names : List String) (l : List String)
    (h : l.Nodup) : (names.foldl addDistinct l).Nodup := by
  induction names generalizing l with
  | nil => exact h
  | cons n rest ih => exact ih _ (nodup_addDistinct l n h)

theorem mem_foldl_addDistinct (names : List String) (l : List String)
    (m : String) : m ∈ names.foldl addDistinct l ↔ m ∈ l ∨ m ∈ names := by
  induction names generalizing l with
  | nil => simp
  | cons n rest ih =>
      rw [List.foldl_cons, ih, mem_addDistinct]
      simp [or_assoc]

theorem pseudoSeen_nodup (sel : String) : (pseudoSeen sel).Nodup :=
  nodup_foldl_addDistinct _ _ List.nodup_nil

theorem mem_pseudoSeen (sel : String) (m : String) :
    m ∈ pseudoSeen sel ↔
      m ∈ (pseudoMatches sel).map (fun mm => "::" ++ String.mk mm.2.2) := by
  unfold pseudoSeen
  rw [mem_foldl_addDistinct]
  simp

theorem pseudoSeen_eq_nil_iff (sel : String) :
    pseudoSeen sel = [] ↔ pseudoMatches sel = [] := by
  constructor
  · intro h
    cases hm : pseudoMatches sel with
    | nil => rfl
    | cons m rest =>
        have : ("::" ++ String.mk m.2.2) ∈ pseudoSeen sel := by
          rw [mem_pseudoSeen, hm]
          simp
        rw [h] at this
        exact absurd this (by simp)
  · intro h
    unfold pseudoSeen
    rw [h]
    rfl

/-- C5: for a rule whose selector contains at least one recognized
pseudo-element token, the base selector used for matching is the selector text
with exactly the last-scanned occurrence's span removed (replaced by "*" when
empty), and the rule's block is appended to each distinct seen pseudo-element
name's group exactly when the element matches that base selector. -/
theorem claim_C5 (el : Element) (rule : CSSStyleRule)
    (b : List (String × List DeclBlock)) (idx len : Nat) (cap : List Char)
    (hlast : (pseudoMatches rule.selectorText).getLast? = some (idx, len, cap)) :
    baseSelectorOf rule.selectorText =
      String.mk (rule.selectorText.data.take idx ++
        rule.selectorText.data.drop (idx + len)) ∧
    effectiveBase rule.selectorText =
      (if baseSelectorOf rule.selectorText = "" then "*"
       else baseSelectorOf rule.selectorText) ∧
    (∀ name, bucketGet (pseudoRuleStep el (b, 0) rule).1 name =
      bucketGet b name ++
        (if el.matchesSel (effectiveBase rule.selectorText) = true ∧
            name ∈ pseudoSeen rule.selectorText
         then [rule.style] else [])) := by
  have hms : pseudoMatches rule.selectorText ≠ [] := by
    intro hh
    rw [hh] at hlast
    exact absurd hlast (by simp)
  refine ⟨?_, rfl, ?_⟩
  · unfold baseSelectorOf
    rw [hlast]
  · intro name
    rw [pseudoRuleStep_eq, if_neg hms]
    by_cases hm : el.matchesSel (effectiveBase rule.selectorText)
    · rw [if_pos hm]
      rw [bucketGet_foldPush _ _ _ _ (pseudoSeen_nodup rule.selectorText)]
      by_cases hmem : name ∈ pseudoSeen rule.selectorText
      · simp [hmem, hm]
      · simp [hmem]
    · rw [if_neg hm]
      simp [hm]

/-- C5 witness: the selector `div::before` scans to a single match whose
removal leaves base selector `div`; the push happens for `::before`. -/
theorem claim_C5_witness :
    (pseudoMatches "div::before").getLast? = some (3, 8, "before".data) ∧
    baseSelectorOf "div::before" =
      String.mk ("div::before".data.take 3 ++ "div::before".data.drop (3 + 8)) ∧
    bucketGet (pseudoRuleStep ⟨fun _ => true, []⟩ ([], 0)
        ⟨"div::before", [⟨"content", "x", false⟩]⟩).1 "::before" =
      bucketGet ([] : List (String × List DeclBlock)) "::before" ++
        (if (fun (_ : String) => true) (effectiveBase "div::before") = true ∧
            "::before" ∈ pseudoSeen "div::before"
         then [[⟨"content", "x", false⟩]] else []) := by
  have hscan : pseudoExecLoop "div::before".data 0 = ([(3, 8, "before".data)], 0) := by
    rw [pseudoExecLoop_of_some (show pseudoExec "div::before".data 0 =
      some (3, 8, "before".data) by decide)]
    rw [pseudoExecLoop_of_none (show pseudoExec "div::before".data 11 = none by decide)]
  have hlast : (pseudoMatches "div::before").getLast? = some (3, 8, "before".data) := by
    unfold pseudoMatches
    rw [hscan]
    rfl
  refine ⟨hlast, ?_, ?_⟩
  · exact (claim_C5 ⟨fun _ => true, []⟩ ⟨"div::before", [⟨"content", "x", false⟩]⟩
      [] 3 8 "before".data hlast).1
  · exact (claim_C5 ⟨fun _ => true, []⟩ ⟨"div::before", [⟨"content", "x", false⟩]⟩
      [] 3 8 "before".data hlast).2.2 "::before"

theorem keys_pushBucket_mem (b : List (String × List DeclBlock)) (n : String)
    (style : DeclBlock) (nm : String) :
    nm ∈ (pushBucket b n style).map (fun p => p.1) ↔
      nm ∈ b.map (fun p => p.1) ∨ nm = n := by
  induction b with
  | nil => simp [pushBucket]
  | cons p rest ih =>
      obtain ⟨k, v⟩ := p
      by_cases hk : k = n
      · subst hk
        simp [pushBucket]
        tauto
      · simp [pushBucket, hk, ih]
        tauto

theorem keys_foldPush_mem (seen : List String) (b : List (String × List DeclBlock))
    (style : DeclBlock) (nm : String) :
    nm ∈ ((seen.foldl (fun bb n => pushBucket bb n style) b).map (fun p => p.1)) ↔
      nm ∈ b.map (fun p => p.1) ∨ nm ∈ seen := by
  induction seen generalizing b with
  | nil => simp
  | cons n rest ih =>
      rw [List.foldl_cons, ih, keys_pushBucket_mem]
      simp [List.mem_cons]
      tauto

/-- The reducer over the rules keeps the regex cursor at `0`. -/
theorem pseudo_fold_snd (el : Element) (rules : List CSSStyleRule)
    (b : List (String × List DeclBlock)) :
    (rules.foldl (pseudoRuleStep el) (b, 0)).2 = 0 := by
  induction rules generalizing b with
  | nil => rfl
  | cons r rest ih =>
      rw [List.foldl_cons, pseudoRuleStep_eq]
      exact ih _

/-- Whether a rule contributes its block to some pseudo-element group: its
selector scans to at least one pseudo-element token and the element matches
the effective base selector. -/
def ruleContributes (el : Element) (rule : CSSStyleRule) : Prop :=
  pseudoMatches rule.selectorText ≠ [] ∧
    el.matchesSel (effectiveBase rule.selectorText) = true

/-- The bucket keys after folding over the rules: a name is present iff it was
present before or some processed rule contributes and names it. -/
theorem pseudo_fold_keys (el : Element) (rules : List CSSStyleRule)
    (b : List (String × List DeclBlock)) (nm : String) :
    nm ∈ ((rules.foldl (pseudoRuleStep el) (b, 0)).1.map (fun p => p.1)) ↔
      nm ∈ b.map (fun p => p.1) ∨ ∃ rule ∈ rules,
        ruleContributes el rule ∧ nm ∈ pseudoSeen rule.selectorText := by
  induction rules generalizing b with
  | nil => simp
  | cons r rest ih =>
      rw [List.foldl_cons, pseudoRuleStep_eq]
      by_cases hms : pseudoMatches r.selectorText = []
      · rw [if_pos hms, ih]
        constructor
        · rintro (h | ⟨rule, hrule, hc, hseen⟩)
          · exact Or.inl h
          · exact Or.inr ⟨rule, List.mem_cons_of_mem _ hrule, hc, hseen⟩
        · rintro (h | ⟨rule, hrule, hc, hseen⟩)
          · exact Or.inl h
          · rcases List.mem_cons.1 hrule with rfl | hr2
            · exact absurd hms hc.1
            · exact Or.inr ⟨rule, hr2, hc, hseen⟩
      · rw [if_neg hms]
        by_cases hm : el.matchesSel (effectiveBase r.selectorText)
        · rw [if_pos hm, ih]
          rw [keys_foldPush_mem]
          constructor
          · rintro ((h | h) | ⟨rule, hrule, hc, hseen⟩)
            · exact Or.inl h
            · exact Or.inr ⟨r, List.mem_cons_self _ _, ⟨hms, hm⟩, h⟩
            · exact Or.inr ⟨rule, List.mem_cons_of_mem _ hrule, hc, hseen⟩
          · rintro (h | ⟨rule, hrule, hc, hseen⟩)
            · exact Or.inl (Or.inl h)
            · rcases List.mem_cons.1 hrule with rfl | hr2
              · exact Or.inl (Or.inr hseen)
              · exact Or.inr ⟨rule, hr2, hc, hseen⟩
        · rw [if_neg hm, ih]
          constructor
          · rintro (h | ⟨rule, hrule, hc, hseen⟩)
            · exact Or.inl h
            · exact Or.inr ⟨rule, List.mem_cons_of_mem _ hrule, hc, hseen⟩
          · rintro (h | ⟨rule, hrule, hc, hseen⟩)
            · exact Or.inl h
            · rcases List.mem_cons.1 hrule with rfl | hr2
              · exact absurd hc.2 (by simpa using hm)
              · exact Or.inr ⟨rule, hr2, hc, hseen⟩

/-- C7: `getPseudoElementStyles` returns the explicit "nothing found" value
(`null`), as opposed to a mapping, exactly when no rule contributed to any
pseudo-element group; and every name in a returned mapping was named by at
least one rule whose base selector matched the element. -/
theorem claim_C7 (el : Element) (rules : List CSSStyleRule) :
    (getPseudoElementStyles el rules = none ↔
      ∀ rule ∈ rules, ¬ ruleContributes el rule) ∧
    (∀ m, getPseudoElementStyles el rules = some m →
      ∀ nm ∈ m.map (fun p => p.1), ∃ rule ∈ rules,
        nm ∈ pseudoSeen rule.selectorText ∧
        el.matchesSel (effectiveBase rule.selectorText) = true) := by
  have hkeys := pseudo_fold_keys el rules []
  have hiff : ((rules.foldl (pseudoRuleStep el) ([], 0)).1.map (fun p => p.1) = []) ↔
      ∀ rule ∈ rules, ¬ ruleContributes el rule := by
    rw [List.eq_nil_iff_forall_not_mem]
    constructor
    · intro h rule hrule hc
      obtain ⟨m0, hm0⟩ : ∃ m0, m0 ∈ pseudoMatches rule.selectorText := by
        cases hmm : pseudoMatches rule.selectorText with
        | nil => exact absurd hmm hc.1
        | cons a l => exact ⟨a, by simp [hmm]⟩
      have hseen : ("::" ++ String.mk m0.2.2) ∈ pseudoSeen rule.selectorText := by
        rw [mem_pseudoSeen]
        exact List.mem_map_of_mem _ hm0
      exact h _ ((hkeys _).2 (Or.inr ⟨rule, hrule, hc, hseen⟩))
    · intro h nm hmem
      rcases (hkeys nm).1 hmem with h2 | ⟨rule, hrule, hc, _⟩
      · exact absurd h2 (by simp)
      · exact h rule hrule hc
  constructor
  · rw [← hiff]
    unfold getPseudoElementStyles getPseudoElementStylesS
    dsimp only
    by_cases hk : (rules.foldl (pseudoRuleStep el) ([], 0)).1.map (fun p => p.1) = []
    · simp [hk]
    · simp [hk]
  · intro m hm nm hnm
    have hk : ¬ ((rules.foldl (pseudoRuleStep el) ([], 0)).1.map (fun p => p.1) = []) := by
      intro hk0
      have : getPseudoElementStyles el rules = none := by
        unfold getPseudoElementStyles getPseudoElementStylesS
        dsimp only
        simp [hk0]
      rw [hm] at this
      exact absurd this (by simp)
    have hmval : m = ((rules.foldl (pseudoRuleStep el) ([], 0)).1.map (fun p => p.1)).map
        (fun name => (name, getAppliedPropertiesForStyles
          (bucketGet (rules.foldl (pseudoRuleStep el) ([], 0)).1 name))) := by
      have : getPseudoElementStyles el rules =
          some (((rules.foldl (pseudoRuleStep el) ([], 0)).1.map (fun p => p.1)).map
            (fun name => (name, getAppliedPropertiesForStyles
              (bucketGet (rules.foldl (pseudoRuleStep el) ([], 0)).1 name)))) := by
        unfold getPseudoElementStyles getPseudoElementStylesS
        dsimp only
        simp [hk]
      rw [hm] at this
      exact Option.some.inj this
    have hnm2 : nm ∈ ((rules.foldl (pseudoRuleStep el) ([], 0)).1.map (fun p => p.1)) := by
      rw [hmval] at hnm
      simpa [List.map_map, Function.comp] using hnm
    rcases (hkeys nm).1 hnm2 with h2 | ⟨rule, hrule, hc, hseen⟩
    · exact absurd h2 (by simp)
    · exact ⟨rule, hrule, hseen, hc.2⟩

/-- C9: the shared regex cursor is `0` when a call starts (module-load value,
restored by every call) and is `0` again when the call returns, so a second
call with the same inputs sees the same cursor and returns the identical
result and state: no observable state leaks between calls.  (`getElementStyles`
never touches the shared regex, so it is a pure function of its arguments by
construction.) -/
theorem claim_C9 (el : Element) (rules : List CSSStyleRule) :
    (getPseudoElementStylesS el rules 0).2 = 0 ∧
    getPseudoElementStylesS el rules (getPseudoElementStylesS el rules 0).2 =
      getPseudoElementStylesS el rules 0 := by
  have h2 : (getPseudoElementStylesS el rules 0).2 = 0 := by
    unfold getPseudoElementStylesS
    dsimp only
    by_cases hk : (rules.foldl (pseudoRuleStep el) ([], 0)).1.map (fun p => p.1) = []
    · simp [hk, pseudo_fold_snd]
    · simp [hk, pseudo_fold_snd]
  exact ⟨h2, by rw [h2]⟩

theorem scan_upper_before : pseudoExecLoop "::BEFORE".data 0 =
    ([(0, 8, "BEFORE".data)], 0) := by
  rw [pseudoExecLoop_of_some (show pseudoExec "::BEFORE".data 0 =
    some (0, 8, "BEFORE".data) by decide)]
  rw [pseudoExecLoop_of_none (show pseudoExec "::BEFORE".data 8 = none by decide)]

theorem scan_lower_before : pseudoExecLoop "::before".data 0 =
    ([(0, 8, "before".data)], 0) := by
  rw [pseudoExecLoop_of_some (show pseudoExec "::before".data 0 =
    some (0, 8, "before".data) by decide)]
  rw [pseudoExecLoop_of_none (show pseudoExec "::before".data 8 = none by decide)]

theorem matches_upper_before : pseudoMatches "::BEFORE" = [(0, 8, "BEFORE".data)] := by
  unfold pseudoMatches
  rw [scan_upper_before]

theorem matches_lower_before : pseudoMatches "::before" = [(0, 8, "before".data)] := by
  unfold pseudoMatches
  rw [scan_lower_before]

theorem seen_upper_before : pseudoSeen "::BEFORE" = ["::BEFORE"] := by
  unfold pseudoSeen
  rw [matches_upper_before]
  decide

theorem seen_lower_before : pseudoSeen "::before" = ["::before"] := by
  unfold pseudoSeen
  rw [matches_lower_before]
  decide

/-- C10: the token `BEFORE` in `::BEFORE` is recognized (case-insensitive
matching) but the grouping key keeps its original case, so `::BEFORE` and
`::before` rules land in two distinct entries of the returned mapping. -/
theorem claim_C10 :
    getPseudoElementStyles ⟨fun _ => true, []⟩
        [⟨"::BEFORE", [⟨"content", "a", false⟩]⟩,
         ⟨"::before", [⟨"content", "b", false⟩]⟩] =
      some [("::BEFORE", some [("content", "a")]),
            ("::before", some [("content", "b")])] ∧
    ("::BEFORE" : String) ≠ "::before" := by
  have hstep1 : pseudoRuleStep ⟨fun _ => true, []⟩ ([], 0)
      ⟨"::BEFORE", [⟨"content", "a", false⟩]⟩ =
      ([("::BEFORE", [[⟨"content", "a", false⟩]])], 0) := by
    rw [pseudoRuleStep_eq]
    dsimp only
    rw [matches_upper_before, seen_upper_before]
    decide
  have hstep2 : pseudoRuleStep ⟨fun _ => true, []⟩
      (([("::BEFORE", [[⟨"content", "a", false⟩]])] :
        List (String × List DeclBlock)), 0)
      ⟨"::before", [⟨"content", "b", false⟩]⟩ =
      ([("::BEFORE", [[⟨"content", "a", false⟩]]),
        ("::before", [[⟨"content", "b", false⟩]])], 0) := by
    rw [pseudoRuleStep_eq]
    dsimp only
    rw [matches_lower_before, seen_lower_before]
    decide
  constructor
  · unfold getPseudoElementStyles getPseudoElementStylesS
    dsimp only
    rw [List.foldl_cons, hstep1, List.foldl_cons, hstep2, List.foldl_nil]
    decide
  · decide

/-- C7 witness: a pure `::before` rule against an element matching everything
yields a mapping whose single name `::before` satisfies the second conjunct
of the theorem. -/
theorem claim_C7_witness :
    getPseudoElementStyles ⟨fun _ => true, []⟩
        [⟨"::before", [⟨"content", "x", false⟩]⟩] =
      some [("::before", some [("content", "x")])] ∧
    ("::before" : String) ∈
      ([("::before", some [("content", "x")])].map (fun p => p.1)) ∧
    (∃ rule ∈ [(⟨"::before", [⟨"content", "x", false⟩]⟩ : CSSStyleRule)],
      ("::before" : String) ∈ pseudoSeen rule.selectorText ∧
      (⟨fun _ => true, []⟩ : Element).matchesSel
        (effectiveBase rule.selectorText) = true) := by
  have hstep : pseudoRuleStep ⟨fun _ => true, []⟩ ([], 0)
      ⟨"::before", [⟨"content", "x", false⟩]⟩ =
      ([("::before", [[⟨"content", "x", false⟩]])], 0) := by
    rw [pseudoRuleStep_eq]
    dsimp only
    rw [matches_lower_before, seen_lower_before]
    decide
  have heval : getPseudoElementStyles ⟨fun _ => true, []⟩
      [⟨"::before", [⟨"content", "x", false⟩]⟩] =
      some [("::before", some [("content", "x")])] := by
    unfold getPseudoElementStyles getPseudoElementStylesS
    dsimp only
    rw [List.foldl_cons, hstep, List.foldl_nil]
    decide
  refine ⟨heval, by decide, ?_⟩
  exact (claim_C7 ⟨fun _ => true, []⟩
    [⟨"::before", [⟨"content", "x", false⟩]⟩]).2
    [("::before", some [("content", "x")])] heval "::before" (by decide)

end VisualHtml
